import Mathlib

/-!
Verification of the hierarchical-inventory container system
(`src/part_06/final_file.py`, with the `list_items` variant of
`src/part_06/containers.py`).

The Python object graph is embedded shallowly: an `Item` is a leaf carrying a
name and a weight, a `Container`/`MagicContainer` is a node carrying the
fields `name`, `weight` (tare), `weight_capacity`, `is_multi_container` and
the ordered child list `items`.  Python's unbounded `int` is `Int`.  Methods
become pure functions; a mutating method returns the updated object, and the
boolean a method returns in the source is returned alongside it.
-/

namespace Inventory

/-- One Python object of the inventory tree: `Item.leaf name weight` is an
`Item` instance; `Obj.node magic name weight weight_capacity is_multi items`
is a `Container` instance (`magic = false`) or a `MagicContainer` instance
(`magic = true`), with its field values and child list `items`. -/
inductive Obj where
  | leaf (name : String) (weight : Int)
  | node (magic : Bool) (name : String) (weight : Int) (weightCapacity : Int)
         (isMulti : Bool) (items : List Obj)
deriving Repr

namespace Obj

/-- `isinstance(x, Container)` — `MagicContainer` is a subclass of
`Container`, so both node kinds count. -/
def isContainer : Obj → Bool
  | .leaf .. => false
  | .node .. => true

/-- The `name` attribute. -/
def nameOf : Obj → String
  | .leaf n _ => n
  | .node _ n _ _ _ _ => n

/-- The `weight` attribute (tare weight for containers). -/
def weightOf : Obj → Int
  | .leaf _ w => w
  | .node _ _ w _ _ _ => w

/-- The `weight_capacity` attribute.  A leaf `Item` has no such attribute in
the source and the code never reads it on one; we return 0 there. -/
def weight_capacity : Obj → Int
  | .leaf _ _ => 0
  | .node _ _ _ cap _ _ => cap

/-- The `is_multi_container` attribute (false for leaves, never read there). -/
def isMultiOf : Obj → Bool
  | .leaf _ _ => false
  | .node _ _ _ _ m _ => m

/-- The child list `self.items` (empty for leaves, never read there). -/
def itemsOf : Obj → List Obj
  | .leaf _ _ => []
  | .node _ _ _ _ _ its => its

end Obj

open Obj

/-- `sum(item.get_current_weight() for item in its if not isinstance(item, Container))`:
the summand only ever sees leaves, whose `get_current_weight` is their
`weight` field.  This is the body of `Container.get_current_capacity`
(final_file.py 190-191), of `MagicContainer.get_current_capacity` (261-262)
and of both `get_item_weight` overrides on containers (186-187, 269-270). -/
def leafItemsWeight (its : List Obj) : Int :=
  its.foldr (fun it acc => match it with
    | .leaf _ w => w + acc
    | .node .. => acc) 0

/-- `Container.get_child_container_capacity` (final_file.py 178-179):
`sum(item.weight_capacity for item in self.items if isinstance(item, Container))`. -/
def childContainerCapacity (its : List Obj) : Int :=
  its.foldr (fun it acc => match it with
    | .leaf .. => acc
    | .node _ _ _ cap _ _ => cap + acc) 0

/-- `get_item_weight`: `Item.get_item_weight` returns `self.weight`
(final_file.py 57-58); the `Container`/`MagicContainer` overrides return the
sum of the current weights of the non-container children (186-187, 269-270). -/
def get_item_weight : Obj → Int
  | .leaf _ w => w
  | .node _ _ _ _ _ its => leafItemsWeight its

/-- `get_current_weight`: `Item.get_current_weight` returns `self.weight`
(final_file.py 53-54); `Container.get_current_weight` returns
`self.weight + sum(item.get_item_weight() for item in self.items)`
(182-183); `MagicContainer.get_current_weight` returns `self.weight` alone
(265-266). -/
def get_current_weight : Obj → Int
  | .leaf _ w => w
  | .node true _ w _ _ _ => w
  | .node false _ w _ _ its => w + (its.map get_item_weight).sum

/-- `get_current_capacity` (final_file.py 190-191 and the identical override
261-262): sum of the current weights of the non-container children.  Never
invoked on a leaf in the source. -/
def get_current_capacity : Obj → Int
  | .leaf _ _ => 0
  | .node _ _ _ _ _ its => leafItemsWeight its

/-- `get_child_container_capacity` as a method on the object. -/
def get_child_container_capacity : Obj → Int
  | .leaf _ _ => 0
  | .node _ _ _ _ _ its => childContainerCapacity its

/-- The admission gate `Container.add_item` applies to a child container
`c` before recursing (final_file.py 154-155):
`item.get_current_weight() + container.get_current_capacity() <=
 container.weight_capacity - container.get_child_container_capacity()
 or isinstance(item, Container)`. -/
def childGateC (item c : Obj) : Bool :=
  decide (get_current_weight item + get_current_capacity c ≤
          weight_capacity c - get_child_container_capacity c) || isContainer item

/-- The same gate as written in `MagicContainer.add_item` (final_file.py
233-234), with the two summands in the other order. -/
def childGateM (item c : Obj) : Bool :=
  decide (get_current_capacity c + get_current_weight item ≤
          weight_capacity c - get_child_container_capacity c) || isContainer item

mutual

/-- `Container.add_item` / `MagicContainer.add_item` (final_file.py 141-170
and 224-250).  Returns the updated receiver together with the boolean the
method returns.  The `parent_container_name` argument only changes the text
of the printed success message and is not modelled.  Note that on the
recursion branch the source discards the recursive call's return value and
returns `True` unconditionally (lines 156-157, 235-236). -/
def add_item : Obj → Obj → Bool → Obj × Bool
  -- a leaf `Item` has no `add_item` method; the source never dispatches here
  | .leaf n w, _, _ => (.leaf n w, false)
  | .node false n w cap multi its, item, start_load =>
    if isContainer item && start_load then
      -- lines 144-148: unconditional attach, tare and capacity absorb the child
      (.node false n (w + get_current_weight item) (cap + weight_capacity item)
             true (its ++ [item]), true)
    else
      match addLoopC its item with
      | some its2 => (.node false n w cap multi its2, true)
      | none =>
        -- line 159: item.get_current_weight() + self.get_current_capacity()
        --           <= self.weight_capacity - self.get_child_container_capacity()
        if get_current_weight item + leafItemsWeight its ≤
           cap - childContainerCapacity its then
          (.node false n w cap multi (its ++ [item]), true)
        else
          (.node false n w cap multi its, false)
  | .node true n w cap multi its, item, start_load =>
    if isContainer item && start_load then
      -- lines 225-228: MagicContainer's attach updates capacity but not weight
      (.node true n w (cap + weight_capacity item) true (its ++ [item]), true)
    else
      match addLoopM its item with
      | some its2 => (.node true n w cap multi its2, true)
      | none =>
        -- line 239: self.get_current_capacity() + item.get_current_weight() <= ...
        if leafItemsWeight its + get_current_weight item ≤
           cap - childContainerCapacity its then
          (.node true n w cap multi (its ++ [item]), true)
        else
          (.node true n w cap multi its, false)

/-- The `for container in self.items` loop of `Container.add_item`
(final_file.py 152-157): scan the children in order; at the first child
container passing the gate, recurse into it (replacing that child by the
recursion's updated state) and stop.  `none` means no child qualified. -/
def addLoopC : List Obj → Obj → Option (List Obj)
  | [], _ => none
  | c :: rest, item =>
    if isContainer c && childGateC item c then
      some ((add_item c item false).fst :: rest)
    else
      match addLoopC rest item with
      | some rest2 => some (c :: rest2)
      | none => none

/-- The same loop as written in `MagicContainer.add_item` (final_file.py
231-236). -/
def addLoopM : List Obj → Obj → Option (List Obj)
  | [], _ => none
  | c :: rest, item =>
    if isContainer c && childGateM item c then
      some ((add_item c item false).fst :: rest)
    else
      match addLoopM rest item with
      | some rest2 => some (c :: rest2)
      | none => none

end

mutual

/-- The leaf `Item` with name `n` and weight `w` occurs somewhere in the
subtree rooted at `o`. -/
def leafOccurs (n : String) (w : Int) : Obj → Bool
  | .leaf n' w' => n == n' && w == w'
  | .node _ _ _ _ _ its => leafOccursList n w its

/-- The leaf `Item` with name `n` and weight `w` occurs in the subtree of
some member of the list. -/
def leafOccursList (n : String) (w : Int) : List Obj → Bool
  | [] => false
  | o :: rest => leafOccurs n w o || leafOccursList n w rest

end

/-! ### Basic lemmas about the placement loop -/

/-- `MagicContainer.add_item`'s per-child gate coincides with
`Container.add_item`'s: the source only writes the two summands in the other
order. -/
theorem childGateM_eq (item c : Obj) : childGateM item c = childGateC item c := by
  unfold childGateM childGateC
  rw [Int.add_comm (get_current_capacity c) (get_current_weight item)]

/-- The two textually duplicated child-scanning loops compute the same
function. -/
theorem addLoopM_eq (its : List Obj) (item : Obj) : addLoopM its item = addLoopC its item := by
  induction its with
  | nil => rfl
  | cons c rest ih => simp only [addLoopM, addLoopC, childGateM_eq, ih]

/-- The loop finds no child exactly when no child container passes the gate. -/
theorem addLoopC_eq_none {its : List Obj} {item : Obj} :
    addLoopC its item = none ↔ ∀ c ∈ its, (isContainer c && childGateC item c) = false := by
  induction its with
  | nil => simp [addLoopC]
  | cons c rest ih =>
    constructor
    · intro h
      cases hg : (isContainer c && childGateC item c) with
      | true => simp [addLoopC, hg] at h
      | false =>
        simp only [addLoopC, hg, Bool.false_eq_true, if_false] at h
        cases hrest : addLoopC rest item with
        | some l => simp [hrest] at h
        | none =>
          intro y hy
          rcases List.mem_cons.mp hy with rfl | hy'
          · exact hg
          · exact (ih.mp hrest) y hy'
    · intro hall
      have hg : (isContainer c && childGateC item c) = false := hall c (by simp)
      have hrest : addLoopC rest item = none :=
        ih.mpr (fun y hy => hall y (by simp [hy]))
      simp [addLoopC, hg, hrest]

/-- When the loop succeeds, the child list splits as
`pre ++ c :: rest` where `c` is the first child passing the gate, and the
returned list replaces exactly `c` by the recursion's updated state. -/
theorem addLoopC_some {its its2 : List Obj} {item : Obj}
    (h : addLoopC its item = some its2) :
    ∃ pre c rest, its = pre ++ c :: rest ∧
      its2 = pre ++ (add_item c item false).fst :: rest ∧
      (isContainer c && childGateC item c) = true ∧
      ∀ y ∈ pre, (isContainer y && childGateC item y) = false := by
  induction its generalizing its2 with
  | nil => simp [addLoopC] at h
  | cons c rest ih =>
    cases hg : (isContainer c && childGateC item c) with
    | true =>
      refine ⟨[], c, rest, rfl, ?_, hg, by simp⟩
      simp only [addLoopC, hg, if_true] at h
      simpa using h.symm
    | false =>
      simp only [addLoopC, hg, Bool.false_eq_true, if_false] at h
      cases hrest : addLoopC rest item with
      | none => simp [hrest] at h
      | some l =>
        simp only [hrest] at h
        obtain ⟨pre, c0, tail, h1, h2, h3, h4⟩ := ih hrest
        refine ⟨c :: pre, c0, tail, by simp [h1], ?_, h3, ?_⟩
        · simp at h; rw [← h, h2]; simp
        · intro y hy
          rcases List.mem_cons.mp hy with rfl | hy'
          · exact hg
          · exact h4 y hy'

/-- Conversely, if everything before `c0` fails the gate and `c0` passes it,
the loop recurses into `c0`. -/
theorem addLoopC_of_first {item c0 : Obj} {rest : List Obj} :
    ∀ pre, (∀ y ∈ pre, (isContainer y && childGateC item y) = false) →
      (isContainer c0 && childGateC item c0) = true →
      addLoopC (pre ++ c0 :: rest) item
        = some (pre ++ (add_item c0 item false).fst :: rest) := by
  intro pre hpre hc0
  induction pre with
  | nil => simp [addLoopC, hc0]
  | cons y ys ih =>
    have hy := hpre y (by simp)
    have ih' := ih (fun z hz => hpre z (by simp [hz]))
    simp [addLoopC, hy, ih']

/-! ### Unfolding lemmas and the leaf-placement recursion property -/

/-- Cargo path of `add_item` (`start_load = false`), unified over the two
container kinds: scan the children; if a child qualifies, adopt the loop's
result and return `True`; otherwise test the direct fit. -/
theorem add_item_cargo (mg : Bool) (n : String) (w cap : Int) (mu : Bool)
    (its : List Obj) (item : Obj) :
    add_item (.node mg n w cap mu its) item false
      = match addLoopC its item with
        | some its2 => (.node mg n w cap mu its2, true)
        | none =>
          if get_current_weight item + leafItemsWeight its ≤
             cap - childContainerCapacity its then
            (.node mg n w cap mu (its ++ [item]), true)
          else
            (.node mg n w cap mu its, false) := by
  cases mg
  · simp [add_item]
  · simp only [add_item, Bool.and_false, Bool.false_eq_true, if_false, addLoopM_eq]
    rw [Int.add_comm (leafItemsWeight its) (get_current_weight item)]

theorem leafOccursList_append (ln : String) (lw : Int) (l1 l2 : List Obj) :
    leafOccursList ln lw (l1 ++ l2) = (leafOccursList ln lw l1 || leafOccursList ln lw l2) := by
  induction l1 with
  | nil => simp [leafOccursList]
  | cons o rest ih => simp [leafOccursList, ih, Bool.or_assoc]

theorem leafOccursList_of_mem {ln : String} {lw : Int} {o : Obj} {l : List Obj}
    (hm : o ∈ l) (ho : leafOccurs ln lw o = true) : leafOccursList ln lw l = true := by
  induction l with
  | nil => simp at hm
  | cons x rest ih =>
    rcases List.mem_cons.mp hm with rfl | hm'
    · simp [leafOccursList, ho]
    · simp [leafOccursList, ih hm']

theorem sizeOf_lt_of_mem_node {c : Obj} {its : List Obj} (h : c ∈ its)
    (mg : Bool) (n : String) (w cap : Int) (mu : Bool) :
    sizeOf c < sizeOf (Obj.node mg n w cap mu its) := by
  have h1 := List.sizeOf_lt_of_mem h
  simp only [Obj.node.sizeOf_spec]
  omega

/-- Key recursion property of the placement algorithm, for leaf cargo: if a
container's direct-fit check (`item.get_current_weight() +
self.get_current_capacity() <= self.weight_capacity -
self.get_child_container_capacity()`) holds, then `add_item` returns `True`
and the leaf lands somewhere in the container's subtree. -/
theorem leaf_place (ln : String) (lw : Int) :
    ∀ (c : Obj), isContainer c = true →
      get_current_weight (.leaf ln lw) + get_current_capacity c ≤
        weight_capacity c - get_child_container_capacity c →
      (add_item c (.leaf ln lw) false).snd = true ∧
      leafOccurs ln lw (add_item c (.leaf ln lw) false).fst = true
  | .node mg n w cap mu its, _, hfit => by
    rw [add_item_cargo]
    cases hloop : addLoopC its (.leaf ln lw) with
    | some its2 =>
      obtain ⟨pre, c0, rest, hsplit, hits2, hgate, -⟩ := addLoopC_some hloop
      rw [Bool.and_eq_true] at hgate
      have hc0 : isContainer c0 = true := hgate.1
      have hcheck : get_current_weight (.leaf ln lw) + get_current_capacity c0 ≤
          weight_capacity c0 - get_child_container_capacity c0 := by
        have h2 := hgate.2
        simp [childGateC, isContainer] at h2
        exact h2
      have hrec := leaf_place ln lw c0 hc0 hcheck
      refine ⟨rfl, ?_⟩
      simp only [leafOccurs, hits2]
      rw [@leafOccursList_of_mem ln lw ((add_item c0 (.leaf ln lw) false).fst)
            (pre ++ (add_item c0 (.leaf ln lw) false).fst :: rest) (by simp) hrec.2]
    | none =>
      have hdir : get_current_weight (.leaf ln lw) + leafItemsWeight its ≤
          cap - childContainerCapacity its := by
        simpa [get_current_capacity, weight_capacity, get_child_container_capacity] using hfit
      rw [if_pos hdir]
      refine ⟨rfl, ?_⟩
      simp [leafOccurs, leafOccursList_append, leafOccursList]
termination_by c => sizeOf c
decreasing_by
  exact sizeOf_lt_of_mem_node (by simp [hsplit]) mg n w cap mu

/-! ### Claims C1, C2, C3, C4, C10 about add_item -/

/-- C1, counterexample.  The claim says the value returned by
`c.add_item(i)` equals the value returned by the recursive
`child.add_item(i)` call once a child passes the admission gate.  Here `c`
(capacity 10) holds the sub-container `A` (capacity 0) and receives the
container payload `p` (weight 5, no attach flag); `A` passes the gate via
the `or isinstance(item, Container)` clause, the recursion into `A` is
rejected (`A.add_item(p)` returns `False` and `p` is placed nowhere), yet
`c.add_item(p)` returns `True`: the two returned values differ. -/
theorem add_item_ignores_child_result_cex :
    add_item (.node false "c" 0 10 false [.node false "A" 0 0 false []])
        (.node false "p" 5 0 false []) false
      = (.node false "c" 0 10 false [.node false "A" 0 0 false []], true)
    ∧ add_item (.node false "A" 0 0 false []) (.node false "p" 5 0 false []) false
      = (.node false "A" 0 0 false [], false) := by
  constructor <;> rfl

/-- C1, amended.  For a container whose child list splits as
`pre ++ A :: rest` where nothing in `pre` passes the admission gate and `A`
does, `add_item` recurses the placement into `A` — replacing exactly `A` by
the recursion's updated state — and returns `True` unconditionally,
discarding the recursive call's returned flag; when the cargo is a leaf
`Item`, the recursive call also returns `True`, so for leaf cargo the two
values do coincide. -/
theorem add_item_first_fit_recursion (mg : Bool) (n : String) (w cap : Int) (mu : Bool)
    (pre rest : List Obj) (A item : Obj)
    (hpre : ∀ y ∈ pre, (isContainer y && childGateC item y) = false)
    (hA : (isContainer A && childGateC item A) = true) :
    add_item (.node mg n w cap mu (pre ++ A :: rest)) item false
      = (.node mg n w cap mu (pre ++ (add_item A item false).fst :: rest), true)
    ∧ (∀ ln lw, item = .leaf ln lw → (add_item A item false).snd = true) := by
  constructor
  · rw [add_item_cargo, addLoopC_of_first pre hpre hA]
  · rintro ln lw rfl
    rw [Bool.and_eq_true] at hA
    have hcheck : get_current_weight (.leaf ln lw) + get_current_capacity A ≤
        weight_capacity A - get_child_container_capacity A := by
      have h2 := hA.2
      simp [childGateC, isContainer] at h2
      exact h2
    exact (leaf_place ln lw A hA.1 hcheck).1

/-- C1, witness: the amended theorem applied to a parent with one
qualifying sub-container receiving the leaf `x` of weight 1. -/
theorem add_item_first_fit_recursion_witness :
    (∀ y ∈ ([] : List Obj), (isContainer y && childGateC (.leaf "x" 1) y) = false)
    ∧ (isContainer (.node false "A" 0 10 false [])
        && childGateC (.leaf "x" 1) (.node false "A" 0 10 false [])) = true
    ∧ add_item (.node false "c" 0 20 false [.node false "A" 0 10 false []]) (.leaf "x" 1) false
        = (.node false "c" 0 20 false
            [(add_item (.node false "A" 0 10 false []) (.leaf "x" 1) false).fst], true)
    ∧ (add_item (.node false "A" 0 10 false []) (.leaf "x" 1) false).snd = true := by
  refine ⟨by simp, by decide, ?_, ?_⟩
  · exact (add_item_first_fit_recursion false "c" 0 20 false [] []
      (.node false "A" 0 10 false []) (.leaf "x" 1) (by simp) (by decide)).1
  · exact (add_item_first_fit_recursion false "c" 0 20 false [] []
      (.node false "A" 0 10 false []) (.leaf "x" 1) (by simp) (by decide)).2 "x" 1 rfl

/-- C2.  For every container (plain or magic) and item: if the item's
current weight plus the used capacity (sum of the direct non-container
children's weights) exceeds `weight_capacity` minus the reserved child
capacity, and no direct child container passes the admission gate (the
code's criterion for a descendant accepting the item), then `add_item`
returns `False` and the receiver — its whole subtree — is returned exactly
as it was: rejection mutates nothing. -/
theorem add_item_reject_no_mutation (mg : Bool) (n : String) (w cap : Int) (mu : Bool)
    (its : List Obj) (item : Obj)
    (hkids : ∀ c ∈ its, (isContainer c && childGateC item c) = false)
    (hdirect : cap - childContainerCapacity its < get_current_weight item + leafItemsWeight its) :
    add_item (.node mg n w cap mu its) item false = (.node mg n w cap mu its, false) := by
  rw [add_item_cargo, addLoopC_eq_none.mpr hkids, if_neg (by omega)]

/-- C2, witness: the spec's own example — a backpack (tare 2, capacity 10)
holding a rope of weight 5 rejects an anvil of weight 8 and still holds
only the rope. -/
theorem add_item_reject_no_mutation_witness :
    (∀ c ∈ ([.leaf "rope" 5] : List Obj), (isContainer c && childGateC (.leaf "anvil" 8) c) = false)
    ∧ ((10 : Int) - childContainerCapacity [.leaf "rope" 5]
        < get_current_weight (.leaf "anvil" 8) + leafItemsWeight [.leaf "rope" 5])
    ∧ add_item (.node false "backpack" 2 10 false [.leaf "rope" 5]) (.leaf "anvil" 8) false
        = (.node false "backpack" 2 10 false [.leaf "rope" 5], false) := by
  refine ⟨by decide, by decide, ?_⟩
  exact add_item_reject_no_mutation false "backpack" 2 10 false [.leaf "rope" 5]
    (.leaf "anvil" 8) (by decide) (by decide)

/-- C3.  First-fit determinism: a container holding exactly the two
sub-containers `A` then `B` (insertion order), where `A` fails the
admission check for the leaf item and `B` passes it, always places the item
inside `B`: the result replaces exactly `B` by `B.add_item`'s updated
state — so the item lands neither directly in the parent nor in `A` — and
the leaf occurs in `B`'s updated subtree. -/
theorem first_fit_lands_in_second_child (mg : Bool) (n : String) (w cap : Int) (mu : Bool)
    (A B : Obj) (ln : String) (lw : Int)
    (hAc : isContainer A = true) (hBc : isContainer B = true)
    (hA : childGateC (.leaf ln lw) A = false)
    (hB : childGateC (.leaf ln lw) B = true) :
    add_item (.node mg n w cap mu [A, B]) (.leaf ln lw) false
      = (.node mg n w cap mu [A, (add_item B (.leaf ln lw) false).fst], true)
    ∧ leafOccurs ln lw (add_item B (.leaf ln lw) false).fst = true := by
  have hloop := @addLoopC_of_first (.leaf ln lw) B ([] : List Obj)
    [A] (by intro y hy; simp at hy; subst hy; simp [hA]) (by simp [hBc, hB])
  simp only [List.cons_append, List.nil_append] at hloop
  constructor
  · rw [add_item_cargo, hloop]
  · have hcheck : get_current_weight (.leaf ln lw) + get_current_capacity B ≤
        weight_capacity B - get_child_container_capacity B := by
      simp [childGateC, isContainer] at hB
      exact hB
    exact (leaf_place ln lw B hBc hcheck).2

/-- C3, witness: parent `C` with sub-containers `A` (capacity 3, no room
for weight 5) then `B` (capacity 10) places the rope (weight 5) in `B`. -/
theorem first_fit_lands_in_second_child_witness :
    (isContainer (.node false "A" 0 3 false [] : Obj) = true)
    ∧ (isContainer (.node false "B" 0 10 false [] : Obj) = true)
    ∧ childGateC (.leaf "rope" 5) (.node false "A" 0 3 false []) = false
    ∧ childGateC (.leaf "rope" 5) (.node false "B" 0 10 false []) = true
    ∧ (add_item (.node false "C" 1 20 false
          [.node false "A" 0 3 false [], .node false "B" 0 10 false []]) (.leaf "rope" 5) false
        = (.node false "C" 1 20 false
            [.node false "A" 0 3 false [],
             (add_item (.node false "B" 0 10 false []) (.leaf "rope" 5) false).fst], true)
      ∧ leafOccurs "rope" 5 (add_item (.node false "B" 0 10 false []) (.leaf "rope" 5) false).fst
          = true) := by
  refine ⟨rfl, rfl, by decide, by decide, ?_⟩
  exact first_fit_lands_in_second_child false "C" 1 20 false _ _ "rope" 5 rfl rfl
    (by decide) (by decide)

/-- C4, counterexample.  The claim says that after an attach,
`c.own_weight = old_own_weight + s.total_carried_weight()` for every
container `c`.  For the MagicContainer `m` (weight 2) attaching the
sub-container `s` (total carried weight 3), `m`'s weight stays 2 instead of
becoming 5: `MagicContainer.add_item`'s attach branch never updates
`self.weight`. -/
theorem magic_attach_weight_cex :
    weightOf (add_item (.node true "m" 2 10 false []) (.node false "s" 3 5 false []) true).fst
      ≠ weightOf (.node true "m" 2 10 false [] : Obj)
        + get_current_weight (.node false "s" 3 5 false []) := by
  decide

/-- C4, amended.  Attaching a sub-container in attach mode
(`start_load = True`) is unconditional: it always succeeds, appends `s` to
the children, sets `is_multi_container`, and adds `s.weight_capacity` to
the capacity; the own weight grows by `s.get_current_weight()` when the
receiver is a plain container and is left unchanged when it is magic. -/
theorem attach_unconditional (mg : Bool) (n : String) (w cap : Int) (mu : Bool)
    (its : List Obj) (s : Obj) (hs : isContainer s = true) :
    add_item (.node mg n w cap mu its) s true
      = (.node mg n (if mg then w else w + get_current_weight s)
               (cap + weight_capacity s) true (its ++ [s]), true) := by
  cases mg <;> simp [add_item, hs]

/-- C4, witness: the amended theorem applied to a plain container
(tare 2, capacity 10) attaching a sub-container of tare 3 and capacity 5. -/
theorem attach_unconditional_witness :
    (isContainer (.node false "s" 3 5 false [] : Obj) = true)
    ∧ add_item (.node false "c" 2 10 false [.leaf "a" 1]) (.node false "s" 3 5 false []) true
        = (.node false "c" (2 + get_current_weight (.node false "s" 3 5 false []))
             (10 + weight_capacity (.node false "s" 3 5 false []))
             true [.leaf "a" 1, .node false "s" 3 5 false []], true) := by
  refine ⟨rfl, ?_⟩
  have h := attach_unconditional false "c" 2 10 false [.leaf "a" 1]
    (.node false "s" 3 5 false []) rfl
  simpa using h

/-- C10.  A plain container with no `Container` among its children treats a
container payload passed without the attach flag as ordinary cargo: the
scanning loop finds no candidate, so the payload is admitted exactly when
its full current weight plus the used capacity fits within
`weight_capacity` minus the reserved child capacity; on success it is
appended to the children while the name, weight, capacity and the (false)
`is_multi_container` flag are all preserved, and on failure the container
is returned unchanged with `False`. -/
theorem container_as_ordinary_cargo (n : String) (w cap : Int) (its : List Obj) (p : Obj)
    (hp : isContainer p = true)
    (hleaves : ∀ y ∈ its, isContainer y = false) :
    add_item (.node false n w cap false its) p false
      = if get_current_weight p + leafItemsWeight its ≤ cap - childContainerCapacity its
        then (.node false n w cap false (its ++ [p]), true)
        else (.node false n w cap false its, false) := by
  rw [add_item_cargo, addLoopC_eq_none.mpr (fun c hc => by simp [hleaves c hc])]

/-- C10, witness: a container (capacity 10) holding a leaf of weight 2
admits the container payload `p` (tare 1 carrying weight 2) as cargo and
appends it. -/
theorem container_as_ordinary_cargo_witness :
    (isContainer (.node false "p" 1 3 false [.leaf "b" 2] : Obj) = true)
    ∧ (∀ y ∈ ([.leaf "a" 2] : List Obj), isContainer y = false)
    ∧ add_item (.node false "c" 0 10 false [.leaf "a" 2])
          (.node false "p" 1 3 false [.leaf "b" 2]) false
        = (.node false "c" 0 10 false
            [.leaf "a" 2, .node false "p" 1 3 false [.leaf "b" 2]], true) := by
  refine ⟨rfl, by decide, ?_⟩
  have h := container_as_ordinary_cargo "c" 0 10 [.leaf "a" 2]
    (.node false "p" 1 3 false [.leaf "b" 2]) rfl (by decide)
  rw [if_pos (by decide)] at h
  exact h

/-! ### Claim C5: reported total weight -/

mutual

/-- Contribution of one child to the recursive leaf-weight total: a leaf
contributes its weight, a container contributes the weights of all
non-container descendants below it. -/
def objLeafDescWeight : Obj → Int
  | .leaf _ w => w
  | .node _ _ _ _ _ its => subtreeLeafWeight its

/-- Sum of the weights of all non-container descendants, at every depth, of
the objects in the list.  (This is the quantity the claim says
`get_current_weight` adds to the tare weight.) -/
def subtreeLeafWeight : List Obj → Int
  | [] => 0
  | o :: rest => objLeafDescWeight o + subtreeLeafWeight rest

end

/-- The claim's formula: own weight plus the weight of every non-container
descendant of the subtree, recursively at every depth. -/
def claimed_total_weight : Obj → Int
  | .leaf _ w => w
  | .node _ _ w _ _ its => w + subtreeLeafWeight its

/-- Sum, over the direct child containers, of the weights of their own
direct non-container children (what `item.get_item_weight()` contributes for
container children). -/
def containerChildLeafWeight : List Obj → Int
  | [] => 0
  | .leaf _ _ :: rest => containerChildLeafWeight rest
  | .node _ _ _ _ _ cs :: rest => leafItemsWeight cs + containerChildLeafWeight rest

/-- C5, counterexample.  The claim says `get_current_weight(c)` equals the
own weight plus the weights of all non-container descendants at every
depth.  For `c` (tare 1) containing `d` containing `e` containing the leaf
`x` of weight 7, `get_current_weight(c) = 1` while the claimed recursive
total is 8: leaves deeper than two levels are not counted. -/
theorem get_current_weight_depth3_cex :
    get_current_weight (.node false "c" 1 0 false
        [.node false "d" 0 0 false [.node false "e" 0 0 false [.leaf "x" 7]]])
      ≠ claimed_total_weight (.node false "c" 1 0 false
        [.node false "d" 0 0 false [.node false "e" 0 0 false [.leaf "x" 7]]]) := by
  decide

/-- C5, amended.  For every plain container, `get_current_weight` equals
the own weight plus the weights of the direct non-container children plus,
for each direct child container, the weights of that child's own direct
non-container children — i.e. the non-container descendants at depth at
most two; deeper descendants contribute nothing. -/
theorem get_current_weight_two_levels (n : String) (w cap : Int) (mu : Bool)
    (its : List Obj) :
    get_current_weight (.node false n w cap mu its)
      = w + leafItemsWeight its + containerChildLeafWeight its := by
  have key : ∀ l : List Obj,
      (l.map get_item_weight).sum = leafItemsWeight l + containerChildLeafWeight l := by
    intro l
    induction l with
    | nil => simp [leafItemsWeight, containerChildLeafWeight]
    | cons o rest ih =>
      cases o with
      | leaf n' w' =>
        simp [leafItemsWeight, containerChildLeafWeight, get_item_weight, ih]
        omega
      | node mg' n' w' cap' mu' its' =>
        simp [leafItemsWeight, containerChildLeafWeight, get_item_weight, ih]
        omega
  simp only [get_current_weight, key]
  omega

/-! ### Claim C6: MagicContainer weight invariance -/

/-- A sequence of `add_item` calls, each op being the item together with the
`start_load` flag, folded over the receiving container. -/
def applyAdds (ops : List (Obj × Bool)) (m : Obj) : Obj :=
  ops.foldl (fun s op => (add_item s op.1 op.2).fst) m

/-- `MagicContainer.add_item` never touches the receiver's kind, name or
`weight` field: only capacity, flag and children can change. -/
theorem magic_add_item_shape (n : String) (w cap : Int) (mu : Bool)
    (its : List Obj) (item : Obj) (sl : Bool) :
    ∃ cap2 mu2 its2,
      (add_item (.node true n w cap mu its) item sl).fst = .node true n w cap2 mu2 its2 := by
  simp only [add_item]
  cases hb : (isContainer item && sl) with
  | true =>
    simp only [hb, if_true]
    exact ⟨cap + weight_capacity item, true, its ++ [item], rfl⟩
  | false =>
    simp only [hb, Bool.false_eq_true, if_false]
    cases hm : addLoopM its item with
    | some its2 => exact ⟨cap, mu, its2, rfl⟩
    | none =>
      by_cases hd : leafItemsWeight its + get_current_weight item ≤
          cap - childContainerCapacity its
      · rw [if_pos hd]
        exact ⟨cap, mu, its ++ [item], rfl⟩
      · rw [if_neg hd]
        exact ⟨cap, mu, its, rfl⟩

/-- C6.  MagicContainer weight invariance: after any sequence of
`add_item` calls (leaf placements and sub-container attachments alike,
whether or not they succeed), the magic container's
`get_current_weight()` — its total carried weight — and its own `weight`
field both still equal the original own weight: the contents never affect
the weight it reports. -/
theorem magic_weight_invariant (n : String) (w cap : Int) (mu : Bool)
    (its : List Obj) (ops : List (Obj × Bool)) :
    get_current_weight (applyAdds ops (.node true n w cap mu its)) = w ∧
    weightOf (applyAdds ops (.node true n w cap mu its)) = w := by
  induction ops generalizing cap mu its with
  | nil => exact ⟨rfl, rfl⟩
  | cons op rest ih =>
    obtain ⟨cap2, mu2, its2, heq⟩ := magic_add_item_shape n w cap mu its op.1 op.2
    simp only [applyAdds, List.foldl_cons] at ih ⊢
    rw [heq]
    exact ih cap2 mu2 its2

/-! ### Claim C9: registry assembly skips directives with absent names -/

/-- `name.strip().lower()`, the normalisation both sides of the registry
lookup comparison get (final_file.py 367): whitespace stripped from both
ends, every character lowercased. -/
def normName (s : String) : String :=
  String.mk (((s.data.dropWhile Char.isWhitespace).reverse.dropWhile
      Char.isWhitespace).reverse.map Char.toLower)

/-- `ContainerManager.get_container_by_name` (final_file.py 364-369): first
container whose normalised name matches.  The source returns
`copy.deepcopy(container)`; in this value semantics the returned value is
the stored value itself. -/
def get_container_by_name : List Obj → String → Option Obj
  | [], _ => none
  | c :: rest, target =>
    if normName (nameOf c) == normName target then some c
    else get_container_by_name rest target

/-- The inner loop of the multi-container directive (final_file.py 312-317):
for each child name, look the child up in the registry built so far and, if
present, attach it (`start_load=True`) to the mother; a name that resolves
to nothing is skipped. -/
def attachChildren (cs : List Obj) (mother : Obj) : List String → Obj
  | [] => mother
  | childName :: more =>
    match get_container_by_name cs childName with
    | some child => attachChildren cs (add_item mother child true).fst more
    | none => attachChildren cs mother more

/-- One multi-container directive row (final_file.py 310-319): build the
mother container `Container(row[0], 0, 0)`, attach the named children, and
append the mother to the registry; then continue with the remaining rows. -/
def loadMultiRows (cs : List Obj) : List (String × List String) → List Obj
  | [] => cs
  | (motherName, childNames) :: rows =>
    loadMultiRows (cs ++ [attachChildren cs (.node false motherName 0 0 false []) childNames]) rows

/-- `MagicContainer.convert_container_to_magic` (final_file.py 253-258):
same tare weight, capacity and multi flag, the (shared) child list, the new
name, and magic behaviour. -/
def convert_container_to_magic (c : Obj) (magicName : String) : Obj :=
  .node true magicName (weightOf c) (weight_capacity c) (isMultiOf c) (itemsOf c)

/-- The magic-conversion directive loop (final_file.py 327-333, and its
verbatim copy for multi-magic rows at 341-347): look up the source
container; if present, append its magic conversion under the new name;
otherwise skip the row. -/
def loadMagicRows (cs : List Obj) : List (String × String) → List Obj
  | [] => cs
  | (magicName, containerName) :: rows =>
    match get_container_by_name cs containerName with
    | some c => loadMagicRows (cs ++ [convert_container_to_magic c magicName]) rows
    | none => loadMagicRows cs rows

/-- C9.  During registry construction, a composite-membership child name
or a magic-conversion source name that resolves to nothing in the registry
built so far is silently skipped: processing the directive list equals
processing it with the unresolvable directive deleted, so nothing is raised
and every remaining directive is still processed. -/
theorem absent_directive_skipped (cs : List Obj) (mother : Obj)
    (childName : String) (more : List String)
    (magicName containerName : String) (rows : List (String × String))
    (h1 : get_container_by_name cs childName = none)
    (h2 : get_container_by_name cs containerName = none) :
    attachChildren cs mother (childName :: more) = attachChildren cs mother more
    ∧ loadMagicRows cs ((magicName, containerName) :: rows) = loadMagicRows cs rows := by
  constructor
  · rw [attachChildren, h1]
  · rw [loadMagicRows, h2]

/-- C9, witness: a registry holding only `box` skips the child name
`ghost` in a composite row and drops a magic conversion sourced from
`ghost`. -/
theorem absent_directive_skipped_witness :
    get_container_by_name [.node false "box" 0 5 false []] "ghost" = none
    ∧ (attachChildren [.node false "box" 0 5 false []] (.node false "rig" 0 0 false [])
          ["ghost", "box"]
        = attachChildren [.node false "box" 0 5 false []] (.node false "rig" 0 0 false [])
          ["box"]
      ∧ loadMagicRows [.node false "box" 0 5 false []] [("magic rig", "ghost")]
        = loadMagicRows [.node false "box" 0 5 false []] []) := by
  refine ⟨rfl, ?_⟩
  exact absent_directive_skipped [.node false "box" 0 5 false []]
    (.node false "rig" 0 0 false []) "ghost" ["box"] "magic rig" "ghost" []
    rfl rfl

/-! ### Claim C8: recursive listing (the sorting variant, containers.py 66-74) -/

/-- The comparator `sorted(self.items, key=lambda x: x.name)` sorts by:
name order (lexicographic string comparison). -/
def byName (a b : Obj) : Bool := decide (nameOf a ≤ nameOf b)

/-- `sorted(self.items, key=lambda x: x.name)` — a stable sort by name. -/
def sortByName (l : List Obj) : List Obj := l.mergeSort byName

theorem perm_sizeOf_eq : ∀ {l1 l2 : List Obj}, l1.Perm l2 → sizeOf l1 = sizeOf l2 := by
  intro l1 l2 hp
  induction hp with
  | nil => rfl
  | cons x _ ih => simp only [List.cons.sizeOf_spec]; omega
  | swap x y l => simp only [List.cons.sizeOf_spec]; omega
  | trans _ _ ih1 ih2 => omega

theorem sizeOf_sortByName (l : List Obj) : sizeOf (sortByName l) = sizeOf l :=
  perm_sizeOf_eq (List.mergeSort_perm l byName)

/-- `"   " * depth`, the indentation prefix. -/
def indentStr : Nat → String
  | 0 => ""
  | d + 1 => "   " ++ indentStr d

/-- `print(indent, end="")` immediately before a recursive `list_items` call
glues the indentation onto the first line the recursion prints; the
recursion's remaining lines already carry their own full indentation. -/
def prefixFirst (pre : String) : List String → List String
  | [] => [pre]
  | l :: ls => (pre ++ l) :: ls

/-- `Container.__str__` / `MagicContainer.__str__` of the sorting variant
(containers.py 13-18 and 121-124): the header line `list_items` prints for
the container itself.  A plain container shows
`get_current_weight()/weight_capacity` as its capacity display, or the
literal `0/0` once it is a multi-container; a magic container shows
`get_magic_capacity_filled()/weight_capacity` (its `get_magic_capacity_filled`,
line 115-116, is the non-container children's weight sum) and reports
`get_current_weight() = weight` as total weight.  A leaf's string is
`Item.__str__` (final_file.py 49-50); `list_items` is never invoked on a
leaf. -/
def strOf (o : Obj) : String :=
  match o with
  | .leaf n w => n ++ " (weight: " ++ toString w ++ ")"
  | .node false n w cap mu its =>
    let cd := if mu then "0/0"
              else toString (get_current_weight (.node false n w cap mu its)) ++ "/"
                   ++ toString cap
    n ++ " (total weight: " ++ toString (get_current_weight (.node false n w cap mu its))
      ++ ", empty weight: " ++ toString w ++ ", capacity: " ++ cd ++ ")"
  | .node true n w cap _ its =>
    n ++ " (total weight: " ++ toString w ++ ", empty weight: " ++ toString w
      ++ ", capacity: " ++ toString (leafItemsWeight its) ++ "/" ++ toString cap ++ ")"

mutual

/-- `Container.list_items` of the sorting variant (containers.py 66-74), as
the sequence of lines it prints: `print(self)` first, then the loop
`for item in sorted(self.items, key=lambda x: x.name)` printing each leaf
child as one indented line and recursing into each container child at
`depth + 1` (with `print(indent, end="")` prefixing the recursion's first
line). -/
def list_items (o : Obj) (depth : Nat) : List String :=
  match o with
  | .leaf _ _ => []
  | .node mg n w cap mu its =>
    strOf (.node mg n w cap mu its) :: list_itemsLoop (sortByName its) depth
termination_by sizeOf o
decreasing_by
  rw [sizeOf_sortByName]; simp only [Obj.node.sizeOf_spec]; omega

/-- The child loop of `list_items`. -/
def list_itemsLoop : List Obj → Nat → List String
  | [], _ => []
  | .leaf n' w' :: rest, depth =>
    (indentStr depth ++ n' ++ " (weight: " ++ toString w' ++ ")") :: list_itemsLoop rest depth
  | .node mg n w cap mu its :: rest, depth =>
    prefixFirst (indentStr depth) (list_items (.node mg n w cap mu its) (depth + 1))
      ++ list_itemsLoop rest depth
termination_by l _ => sizeOf l
decreasing_by
  all_goals simp only [List.cons.sizeOf_spec]
  all_goals omega

end

/-- The block of output lines one child contributes, as the claim describes
it: a leaf child is one line indented to `depth`; a container child is its
whole recursive listing, its first line indented to `depth`. -/
def childBlock (depth : Nat) (it : Obj) : List String :=
  match it with
  | .leaf n' w' => [indentStr depth ++ n' ++ " (weight: " ++ toString w' ++ ")"]
  | .node .. => prefixFirst (indentStr depth) (list_items it (depth + 1))

theorem list_itemsLoop_eq_flatMap (l : List Obj) (depth : Nat) :
    list_itemsLoop l depth = l.flatMap (childBlock depth) := by
  induction l with
  | nil => simp [list_itemsLoop]
  | cons o rest ih =>
    cases o with
    | leaf n' w' => simp [list_itemsLoop, childBlock, ih]
    | node mg n w cap mu its => simp [list_itemsLoop, childBlock, ih]

/-- C8.  The recursive listing prints the container's own line first and
then one block per child, each indented one level deeper, recursing
depth-first into child containers; the children are rendered in an order
that is a permutation of the child list sorted by name (sorted-by-name at
each level, the ordering the claim fixes as canonical, implemented by the
containers.py variant's `sorted(self.items, key=lambda x: x.name)`). -/
theorem list_items_sorted_canonical (mg : Bool) (n : String) (w cap : Int)
    (mu : Bool) (its : List Obj) (depth : Nat) :
    list_items (.node mg n w cap mu its) depth
      = strOf (.node mg n w cap mu its) :: (sortByName its).flatMap (childBlock depth)
    ∧ (sortByName its).Perm its
    ∧ List.Sorted (fun a b => nameOf a ≤ nameOf b) (sortByName its) := by
  refine ⟨?_, List.mergeSort_perm its byName, ?_⟩
  · simp only [list_items, list_itemsLoop_eq_flatMap]
  · have htrans : ∀ a b c : Obj, byName a b = true → byName b c = true → byName a c = true := by
      intro a b c hab hbc
      simp only [byName, decide_eq_true_eq] at *
      exact le_trans hab hbc
    have htotal : ∀ a b : Obj, (byName a b || byName b a) = true := by
      intro a b
      simp only [byName, Bool.or_eq_true, decide_eq_true_eq]
      exact le_total (nameOf a) (nameOf b)
    have h := List.sorted_mergeSort htrans htotal its
    exact List.Pairwise.imp (fun hab => by
      simpa only [byName, decide_eq_true_eq] using hab) h

end Inventory

/-! ### Claim C7: registry copy isolation

The pure value embedding above cannot express aliasing, so for this claim
the object graph is embedded with an explicit heap: container instances
live in a store of cells addressed by allocation index, and a cell's child
list holds either inline leaf items (leaf `Item`s are immutable in the
source, so sharing them is unobservable) or addresses of child container
cells.  `copy.deepcopy` allocates fresh cells for the whole subtree;
`add_item` mutates cells in place.  All recursions carry an explicit fuel
(first argument) so that every function is structurally recursive and
computable; a fuel of `none` results means the fuel was too small or an
address dangled, and all theorems assume enough fuel to read the trees
involved. -/

namespace Inventory

open Obj

/-- A child entry of a heap cell: an inline leaf `Item`, or the address of a
container cell. -/
inductive Ref where
  | item (name : String) (weight : Int)
  | addr (a : Nat)
deriving Repr, DecidableEq

/-- One live `Container`/`MagicContainer` instance on the heap. -/
structure Cell where
  magic : Bool
  name : String
  weight : Int
  cap : Int
  multi : Bool
  children : List Ref
deriving Repr, DecidableEq

/-- The heap: cell `a` is `S[a]?`; allocation appends at the end. -/
abbrev Store := List Cell

/-- `isinstance(-, Container)` for a heap child entry. -/
def refIsContainer : Ref → Bool
  | .item .. => false
  | .addr _ => true

mutual

/-- Read the object tree rooted at address `a` back into the pure
embedding.  `none` when the fuel runs out or an address dangles. -/
def readTree : Nat → Store → Nat → Option Obj
  | 0, _, _ => none
  | fuel + 1, S, a =>
    match S[a]? with
    | none => none
    | some c =>
      match readRefs fuel S c.children with
      | none => none
      | some objs => some (.node c.magic c.name c.weight c.cap c.multi objs)

/-- Read a child list. -/
def readRefs : Nat → Store → List Ref → Option (List Obj)
  | _, _, [] => some []
  | 0, _, _ :: _ => none
  | fuel + 1, S, .item n w :: rest =>
    match readRefs fuel S rest with
    | none => none
    | some objs => some (.leaf n w :: objs)
  | fuel + 1, S, .addr a :: rest =>
    match readTree fuel S a, readRefs fuel S rest with
    | some o, some objs => some (o :: objs)
    | _, _ => none

end

mutual

/-- The addresses `readTree` visits (the cells reachable from `a` within
the fuel bound). -/
def rAddrs : Nat → Store → Nat → List Nat
  | 0, _, _ => []
  | fuel + 1, S, a =>
    a :: (match S[a]? with
          | none => []
          | some c => rAddrsRefs fuel S c.children)

/-- The addresses reachable from the entries of a child list. -/
def rAddrsRefs : Nat → Store → List Ref → List Nat
  | _, _, [] => []
  | 0, _, _ :: _ => []
  | fuel + 1, S, .item _ _ :: rest => rAddrsRefs fuel S rest
  | fuel + 1, S, .addr a :: rest => rAddrs fuel S a ++ rAddrsRefs fuel S rest

end

mutual

/-- `copy.deepcopy` of the container graph rooted at `a`: structurally copy
every reachable cell into fresh cells appended at the end of the store,
returning the grown store and the copy's root address.  The original cells
are never modified. -/
def deepcopy : Nat → Store → Nat → Option (Store × Nat)
  | 0, _, _ => none
  | fuel + 1, S, a =>
    match S[a]? with
    | none => none
    | some c =>
      match copyRefs fuel S c.children with
      | none => none
      | some (S1, children') => some (S1 ++ [{ c with children := children' }], S1.length)

/-- Copy the targets of a child list, threading the growing store; inline
leaf items are copied by value. -/
def copyRefs : Nat → Store → List Ref → Option (Store × List Ref)
  | _, S, [] => some (S, [])
  | 0, _, _ :: _ => none
  | fuel + 1, S, .item n w :: rest =>
    match copyRefs fuel S rest with
    | none => none
    | some (S1, rest') => some (S1, .item n w :: rest')
  | fuel + 1, S, .addr a :: rest =>
    match deepcopy fuel S a with
    | none => none
    | some (S1, a') =>
      match copyRefs fuel S1 rest with
      | none => none
      | some (S2, rest') => some (S2, .addr a' :: rest')

end

/-- The pure object a child entry denotes (a leaf item directly, a
container by reading its cell). -/
def refObj (fuel : Nat) (S : Store) : Ref → Option Obj
  | .item n w => some (.leaf n w)
  | .addr a => readTree fuel S a

mutual

/-- `Container.add_item`/`MagicContainer.add_item` acting on the live heap:
the transcription of final_file.py 141-170 and 224-250 where the receiver
is the cell at `a` and mutation happens in place.  The admission and
direct-fit checks are computed by reading the relevant subtrees and
applying the pure-model arithmetic, which is exactly what the source's
method calls compute on the live objects.  Returns the mutated store and
the method's boolean result. -/
def addItemH : Nat → Store → Nat → Ref → Bool → Option (Store × Bool)
  | 0, _, _, _, _ => none
  | fuel + 1, S, a, item, start_load =>
    match S[a]? with
    | none => none
    | some c =>
      if refIsContainer item && start_load then
        -- the attach branch (lines 144-148 / 225-228); a MagicContainer
        -- receiver does not update its weight
        match refObj fuel S item with
        | none => none
        | some io =>
          some (S.set a { c with
              children := c.children ++ [item],
              multi := true,
              weight := if c.magic then c.weight else c.weight + get_current_weight io,
              cap := c.cap + weight_capacity io }, true)
      else
        match addLoopH fuel S c.magic c.children item with
        | none => none
        | some (some S2) => some (S2, true)   -- `return True`, recursive result discarded
        | some none =>
          match refObj fuel S item, readTree fuel S a with
          | some io, some selfObj =>
            -- direct-fit check (line 159 / 239, the two operand orders agree)
            if get_current_weight io + get_current_capacity selfObj ≤
               weight_capacity selfObj - get_child_container_capacity selfObj then
              some (S.set a { c with children := c.children ++ [item] }, true)
            else
              some (S, false)
          | _, _ => none

/-- The child-scanning loop on the heap: `some (some S2)` means the first
qualifying child container was recursed into (mutating the store to `S2`),
`some none` that no child qualified. -/
def addLoopH : Nat → Store → Bool → List Ref → Ref → Option (Option Store)
  | _, _, _, [], _ => some none
  | 0, _, _, _ :: _, _ => none
  | fuel + 1, S, mg, .item _ _ :: rest, item => addLoopH fuel S mg rest item
  | fuel + 1, S, mg, .addr b :: rest, item =>
    match refObj fuel S item, readTree fuel S b with
    | some io, some bo =>
      if (if mg then childGateM io bo else childGateC io bo) then
        match addItemH fuel S b item false with
        | none => none
        | some (S2, _) => some (some S2)
      else
        addLoopH fuel S mg rest item
    | _, _ => none

end

/-- The name scan of `ContainerManager.get_container_by_name`
(final_file.py 366-367) over the manager's list of live containers,
returning the address of the first name match. -/
def managerFind : Store → List Nat → String → Option Nat
  | _, [], _ => none
  | S, r :: rest, target =>
    match S[r]? with
    | none => none
    | some c =>
      if normName c.name == normName target then some r
      else managerFind S rest target

/-- `ContainerManager.get_container_by_name` (final_file.py 364-369): find
the first name match and return `copy.deepcopy` of it. -/
def get_container_by_nameH (fuel : Nat) (S : Store) (mgr : List Nat)
    (target : String) : Option (Store × Nat) :=
  match managerFind S mgr target with
  | some r => deepcopy fuel S r
  | none => none

end Inventory

namespace Inventory
open Obj

/-- Reading a tree only looks at the addresses `rAddrs` lists: two stores
agreeing there read back the same tree. -/
theorem read_congr : ∀ fuel : Nat,
    (∀ (S S' : Store) (a : Nat), (∀ b ∈ rAddrs fuel S a, S'[b]? = S[b]?) →
      readTree fuel S' a = readTree fuel S a)
    ∧ (∀ (S S' : Store) (l : List Ref), (∀ b ∈ rAddrsRefs fuel S l, S'[b]? = S[b]?) →
      readRefs fuel S' l = readRefs fuel S l) := by
  intro fuel
  induction fuel with
  | zero =>
    refine ⟨fun S S' a _ => rfl, fun S S' l _ => ?_⟩
    cases l with
    | nil => rfl
    | cons r rest => rfl
  | succ f ih =>
    constructor
    · intro S S' a hagree
      have ha : S'[a]? = S[a]? := hagree a (by simp [rAddrs])
      cases hc : S[a]? with
      | none => simp [readTree, ha, hc]
      | some c =>
        simp only [readTree, ha, hc]
        rw [ih.2 S S' c.children (fun b hb => hagree b (by simp [rAddrs, hc, hb]))]
    · intro S S' l hagree
      cases l with
      | nil => rfl
      | cons r rest =>
        cases r with
        | item n w =>
          simp only [readRefs]
          rw [ih.2 S S' rest (fun b hb => hagree b (by simpa [rAddrsRefs] using hb))]
        | addr a =>
          simp only [readRefs]
          rw [ih.1 S S' a (fun b hb => hagree b (by simp [rAddrsRefs, hb])),
              ih.2 S S' rest (fun b hb => hagree b (by simp [rAddrsRefs, hb]))]

/-- A successful read only visits valid addresses. -/
theorem read_valid : ∀ fuel : Nat,
    (∀ (S : Store) (a : Nat) (t : Obj), readTree fuel S a = some t →
      ∀ b ∈ rAddrs fuel S a, b < S.length)
    ∧ (∀ (S : Store) (l : List Ref) (objs : List Obj), readRefs fuel S l = some objs →
      ∀ b ∈ rAddrsRefs fuel S l, b < S.length) := by
  intro fuel
  induction fuel with
  | zero =>
    refine ⟨fun S a t h => by simp [readTree] at h, fun S l objs h b hb => ?_⟩
    cases l with
    | nil => simp [rAddrsRefs] at hb
    | cons r rest => simp [readRefs] at h
  | succ f ih =>
    constructor
    · intro S a t h b hb
      cases hc : S[a]? with
      | none => simp [readTree, hc] at h
      | some c =>
        cases hr : readRefs f S c.children with
        | none => simp [readTree, hc, hr] at h
        | some objs =>
          simp only [rAddrs, hc] at hb
          rcases List.mem_cons.mp hb with rfl | hb'
          · exact (List.getElem?_eq_some.mp hc).1
          · exact ih.2 S c.children objs hr b hb'
    · intro S l objs h b hb
      cases l with
      | nil => simp [rAddrsRefs] at hb
      | cons r rest =>
        cases r with
        | item n w =>
          cases hr : readRefs f S rest with
          | none => simp [readRefs, hr] at h
          | some objs' =>
            simp only [rAddrsRefs] at hb
            exact ih.2 S rest objs' hr b hb
        | addr a =>
          cases ht : readTree f S a with
          | none => simp [readRefs, ht] at h
          | some o =>
            cases hr : readRefs f S rest with
            | none => simp [readRefs, ht, hr] at h
            | some objs' =>
              simp only [rAddrsRefs] at hb
              rcases List.mem_append.mp hb with hb' | hb'
              · exact ih.1 S a o ht b hb'
              · exact ih.2 S rest objs' hr b hb'

/-- Appending fresh cells to the store does not change what an existing
well-read tree reads back to. -/
theorem readTree_append {fuel : Nat} {S : Store} {a : Nat} {t : Obj} (ext : Store)
    (h : readTree fuel S a = some t) : readTree fuel (S ++ ext) a = some t := by
  rw [(read_congr fuel).1 S (S ++ ext) a (fun b hb => by
    have hlt := (read_valid fuel).1 S a t h b hb
    rw [List.getElem?_append, if_pos hlt])]
  exact h

/-- List version of `readTree_append`. -/
theorem readRefs_append {fuel : Nat} {S : Store} {l : List Ref} {objs : List Obj}
    (ext : Store) (h : readRefs fuel S l = some objs) :
    readRefs fuel (S ++ ext) l = some objs := by
  rw [(read_congr fuel).2 S (S ++ ext) l (fun b hb => by
    have hlt := (read_valid fuel).2 S l objs h b hb
    rw [List.getElem?_append, if_pos hlt])]
  exact h

/-- `rAddrs` also only depends on the cells at the listed addresses. -/
theorem rAddrs_congr : ∀ fuel : Nat,
    (∀ (S S' : Store) (a : Nat), (∀ b ∈ rAddrs fuel S a, S'[b]? = S[b]?) →
      rAddrs fuel S' a = rAddrs fuel S a)
    ∧ (∀ (S S' : Store) (l : List Ref), (∀ b ∈ rAddrsRefs fuel S l, S'[b]? = S[b]?) →
      rAddrsRefs fuel S' l = rAddrsRefs fuel S l) := by
  intro fuel
  induction fuel with
  | zero =>
    refine ⟨fun S S' a _ => rfl, fun S S' l _ => ?_⟩
    cases l with
    | nil => rfl
    | cons r rest => rfl
  | succ f ih =>
    constructor
    · intro S S' a hagree
      have ha : S'[a]? = S[a]? := hagree a (by simp [rAddrs])
      cases hc : S[a]? with
      | none => simp [rAddrs, ha, hc]
      | some c =>
        simp only [rAddrs, ha, hc]
        rw [ih.2 S S' c.children (fun b hb => hagree b (by simp [rAddrs, hc, hb]))]
    · intro S S' l hagree
      cases l with
      | nil => rfl
      | cons r rest =>
        cases r with
        | item n w =>
          simp only [rAddrsRefs]
          exact ih.2 S S' rest (fun b hb => hagree b (by simpa [rAddrsRefs] using hb))
        | addr a =>
          simp only [rAddrsRefs]
          rw [ih.1 S S' a (fun b hb => hagree b (by simp [rAddrsRefs, hb])),
              ih.2 S S' rest (fun b hb => hagree b (by simp [rAddrsRefs, hb]))]

/-- Appending fresh cells does not change the reachable-address list of a
well-read root. -/
theorem rAddrs_append {fuel : Nat} {S : Store} {a : Nat} {t : Obj} (ext : Store)
    (h : readTree fuel S a = some t) : rAddrs fuel (S ++ ext) a = rAddrs fuel S a :=
  (rAddrs_congr fuel).1 S (S ++ ext) a (fun b hb => by
    have hlt := (read_valid fuel).1 S a t h b hb
    rw [List.getElem?_append, if_pos hlt])

/-- List version of `rAddrs_append`. -/
theorem rAddrsRefs_append {fuel : Nat} {S : Store} {l : List Ref} {objs : List Obj}
    (ext : Store) (h : readRefs fuel S l = some objs) :
    rAddrsRefs fuel (S ++ ext) l = rAddrsRefs fuel S l :=
  (rAddrs_congr fuel).2 S (S ++ ext) l (fun b hb => by
    have hlt := (read_valid fuel).2 S l objs h b hb
    rw [List.getElem?_append, if_pos hlt])

end Inventory

namespace Inventory

/-- `deepcopy` correctness: copying a well-read tree only appends cells, the
copy reads back to exactly the same pure tree (structural equality), and
every address reachable from the copy is fresh (allocated at or beyond the
old store's length). -/
theorem deepcopy_spec : ∀ fuel : Nat,
    (∀ (S : Store) (a : Nat) (t : Obj), readTree fuel S a = some t →
      ∃ ext a', deepcopy fuel S a = some (S ++ ext, a')
        ∧ readTree fuel (S ++ ext) a' = some t
        ∧ ∀ b ∈ rAddrs fuel (S ++ ext) a', S.length ≤ b)
    ∧ (∀ (S : Store) (l : List Ref) (objs : List Obj), readRefs fuel S l = some objs →
      ∃ ext l', copyRefs fuel S l = some (S ++ ext, l')
        ∧ readRefs fuel (S ++ ext) l' = some objs
        ∧ ∀ b ∈ rAddrsRefs fuel (S ++ ext) l', S.length ≤ b) := by
  intro fuel
  induction fuel with
  | zero =>
    constructor
    · intro S a t h
      simp [readTree] at h
    · intro S l objs h
      cases l with
      | nil =>
        have hobjs : objs = [] := by simpa [readRefs] using h.symm
        exact ⟨[], [], by simp [copyRefs], by simp [readRefs, hobjs], by simp [rAddrsRefs]⟩
      | cons r rest => simp [readRefs] at h
  | succ f ih =>
    constructor
    · intro S a t h
      cases hc : S[a]? with
      | none => simp [readTree, hc] at h
      | some c =>
        cases hr : readRefs f S c.children with
        | none => simp [readTree, hc, hr] at h
        | some objs =>
          have ht : t = .node c.magic c.name c.weight c.cap c.multi objs := by
            simp [readTree, hc, hr] at h
            exact h.symm
          obtain ⟨ext1, l', hcopy, hread', hfresh⟩ := ih.2 S c.children objs hr
          refine ⟨ext1 ++ [{ c with children := l' }], (S ++ ext1).length, ?_, ?_, ?_⟩
          · simp only [deepcopy, hc, hcopy]
            rw [List.append_assoc]
          · rw [← List.append_assoc]
            simp only [readTree, List.getElem?_concat_length]
            rw [readRefs_append [{ c with children := l' }] hread']
            simp [ht]
          · intro b hb
            rw [← List.append_assoc] at hb
            simp only [rAddrs, List.getElem?_concat_length] at hb
            rcases List.mem_cons.mp hb with rfl | hb'
            · simp [List.length_append]
            · rw [rAddrsRefs_append [{ c with children := l' }] hread'] at hb'
              exact hfresh b hb'
    · intro S l objs h
      cases l with
      | nil =>
        have hobjs : objs = [] := by simpa [readRefs] using h.symm
        exact ⟨[], [], by simp [copyRefs], by simp [readRefs, hobjs], by simp [rAddrsRefs]⟩
      | cons r rest =>
        cases r with
        | item n w =>
          cases hr : readRefs f S rest with
          | none => simp [readRefs, hr] at h
          | some objs' =>
            have hobjs : objs = .leaf n w :: objs' := by
              simp [readRefs, hr] at h
              exact h.symm
            obtain ⟨ext, rest', hcopy, hread', hfresh⟩ := ih.2 S rest objs' hr
            refine ⟨ext, .item n w :: rest', ?_, ?_, ?_⟩
            · simp only [copyRefs, hcopy]
            · simp only [readRefs, hread', hobjs]
            · simpa only [rAddrsRefs] using hfresh
        | addr b0 =>
          cases ht0 : readTree f S b0 with
          | none => simp [readRefs, ht0] at h
          | some o =>
            cases hr : readRefs f S rest with
            | none => simp [readRefs, ht0, hr] at h
            | some objs' =>
              have hobjs : objs = o :: objs' := by
                simp [readRefs, ht0, hr] at h
                exact h.symm
              obtain ⟨ext1, b', hcopy1, hread1, hfresh1⟩ := ih.1 S b0 o ht0
              have hr1 : readRefs f (S ++ ext1) rest = some objs' := readRefs_append ext1 hr
              obtain ⟨ext2, rest', hcopy2, hread2, hfresh2⟩ := ih.2 (S ++ ext1) rest objs' hr1
              refine ⟨ext1 ++ ext2, .addr b' :: rest', ?_, ?_, ?_⟩
              · simp only [copyRefs, hcopy1, hcopy2]
                rw [List.append_assoc]
              · rw [← List.append_assoc]
                simp only [readRefs, readTree_append ext2 hread1, hread2, hobjs]
              · intro b hb
                rw [← List.append_assoc] at hb
                simp only [rAddrsRefs] at hb
                rcases List.mem_append.mp hb with hb' | hb'
                · rw [rAddrs_append ext2 hread1] at hb'
                  exact hfresh1 b hb'
                · have h2 := hfresh2 b hb'
                  rw [List.length_append] at h2
                  omega

end Inventory

namespace Inventory

open Obj

/-- Frame property of the heap `add_item`: it preserves the store's length
and only ever writes cells reachable from the receiver. -/
theorem addItemH_frame : ∀ fuel : Nat,
    (∀ (S : Store) (a : Nat) (item : Ref) (sl : Bool) (S' : Store) (r : Bool),
      addItemH fuel S a item sl = some (S', r) →
      S'.length = S.length ∧ ∀ b, b ∉ rAddrs fuel S a → S'[b]? = S[b]?)
    ∧ (∀ (S : Store) (mg : Bool) (l : List Ref) (item : Ref) (S2 : Store),
      addLoopH fuel S mg l item = some (some S2) →
      S2.length = S.length ∧ ∀ b, b ∉ rAddrsRefs fuel S l → S2[b]? = S[b]?) := by
  intro fuel
  induction fuel with
  | zero =>
    constructor
    · intro S a item sl S' r h
      simp [addItemH] at h
    · intro S mg l item S2 h
      cases l with
      | nil => simp [addLoopH] at h
      | cons r rest => simp [addLoopH] at h
  | succ f ih =>
    constructor
    · intro S a item sl S' r h
      cases hc : S[a]? with
      | none => simp [addItemH, hc] at h
      | some c =>
        have hmem_a : a ∈ rAddrs (f + 1) S a := by simp [rAddrs]
        by_cases hatt : (refIsContainer item && sl) = true
        · cases hio : refObj f S item with
          | none => simp [addItemH, hc, hatt, hio] at h
          | some io =>
            simp only [addItemH, hc, hatt, if_true, hio] at h
            obtain ⟨rfl, rfl⟩ : S.set a { c with
                children := c.children ++ [item],
                multi := true,
                weight := if c.magic then c.weight else c.weight + get_current_weight io,
                cap := c.cap + weight_capacity io } = S' ∧ true = r := by
              simpa using h
            refine ⟨List.length_set S a _, fun b hb => ?_⟩
            exact List.getElem?_set_ne (fun hba => hb (by rw [← hba]; exact hmem_a))
        · have hatt' : (refIsContainer item && sl) = false := by
            revert hatt; cases (refIsContainer item && sl) <;> simp
          cases hl : addLoopH f S c.magic c.children item with
          | none => simp [addItemH, hc, hatt', hl] at h
          | some oS =>
            cases oS with
            | some S2 =>
              simp only [addItemH, hc, hatt', Bool.false_eq_true, if_false, hl] at h
              obtain ⟨rfl, rfl⟩ : S2 = S' ∧ true = r := by simpa using h
              obtain ⟨hlen, hframe⟩ := ih.2 S c.magic c.children item S2 hl
              refine ⟨hlen, fun b hb => hframe b (fun hb' => hb ?_)⟩
              simp [rAddrs, hc, hb']
            | none =>
              cases hio : refObj f S item with
              | none => simp [addItemH, hc, hatt', hl, hio] at h
              | some io =>
                cases hself : readTree f S a with
                | none => simp [addItemH, hc, hatt', hl, hio, hself] at h
                | some selfObj =>
                  simp only [addItemH, hc, hatt', Bool.false_eq_true, if_false, hl,
                    hio, hself] at h
                  by_cases hfit : get_current_weight io + get_current_capacity selfObj ≤
                      weight_capacity selfObj - get_child_container_capacity selfObj
                  · rw [if_pos hfit] at h
                    obtain ⟨rfl, rfl⟩ : S.set a { c with children := c.children ++ [item] } = S'
                        ∧ true = r := by simpa using h
                    refine ⟨List.length_set S a _, fun b hb => ?_⟩
                    exact List.getElem?_set_ne (fun hba => hb (by rw [← hba]; exact hmem_a))
                  · rw [if_neg hfit] at h
                    obtain ⟨rfl, rfl⟩ : S = S' ∧ false = r := by simpa using h
                    exact ⟨rfl, fun b _ => rfl⟩
    · intro S mg l item S2 h
      cases l with
      | nil => simp [addLoopH] at h
      | cons r0 rest =>
        cases r0 with
        | item n w =>
          obtain ⟨hlen, hframe⟩ := ih.2 S mg rest item S2 (by simpa [addLoopH] using h)
          exact ⟨hlen, fun b hb => hframe b (by simpa [rAddrsRefs] using hb)⟩
        | addr b0 =>
          cases hio : refObj f S item with
          | none => simp [addLoopH, hio] at h
          | some io =>
            cases hb0 : readTree f S b0 with
            | none => simp [addLoopH, hio, hb0] at h
            | some bo =>
              by_cases hg : (if mg then childGateM io bo else childGateC io bo) = true
              · cases ha : addItemH f S b0 item false with
                | none => simp [addLoopH, hio, hb0, hg, ha] at h
                | some p =>
                  have hS2 : p.1 = S2 := by
                    simp only [addLoopH, hio, hb0, hg, if_true, ha] at h
                    simpa using h
                  obtain ⟨hlen, hframe⟩ := ih.1 S b0 item false p.1 p.2 (by rw [ha])
                  rw [hS2] at hlen hframe
                  refine ⟨hlen, fun b hb => hframe b (fun hb' => hb ?_)⟩
                  simp [rAddrsRefs, hb']
              · have hg' : (if mg then childGateM io bo else childGateC io bo) = false := by
                  revert hg; cases (if mg then childGateM io bo else childGateC io bo) <;> simp
                have hrec : addLoopH f S mg rest item = some (some S2) := by
                  simpa only [addLoopH, hio, hb0, hg', Bool.false_eq_true, if_false] using h
                obtain ⟨hlen, hframe⟩ := ih.2 S mg rest item S2 hrec
                refine ⟨hlen, fun b hb => hframe b (fun hb' => hb ?_)⟩
                simp [rAddrsRefs, hb']

/-- The name scan is unaffected by appending fresh cells. -/
theorem managerFind_append {S : Store} {mgr : List Nat} {target : String} {r : Nat}
    (ext : Store) (h : managerFind S mgr target = some r) :
    managerFind (S ++ ext) mgr target = some r := by
  induction mgr with
  | nil => simp [managerFind] at h
  | cons r0 rest ih =>
    cases hc : S[r0]? with
    | none => simp [managerFind, hc] at h
    | some c =>
      have hc' : (S ++ ext)[r0]? = some c := by
        have hlt : r0 < S.length := (List.getElem?_eq_some.mp hc).1
        rw [List.getElem?_append, if_pos hlt]
        exact hc
      by_cases hn : (normName c.name == normName target) = true
      · simp only [managerFind, hc, hn, if_true] at h
        simp only [managerFind, hc', hn, if_true]
        exact h
      · have hn' : (normName c.name == normName target) = false := by
          revert hn; cases (normName c.name == normName target) <;> simp
        simp only [managerFind, hc, hn', Bool.false_eq_true, if_false] at h
        simp only [managerFind, hc', hn', Bool.false_eq_true, if_false]
        exact ih h

end Inventory

namespace Inventory

/-- C7.  Registry copy isolation: looking the same name up twice returns
two container instances that are structurally equal (both read back to the
canonical entry's tree `t`), and mutating the first copy through any
`add_item` call changes neither what the second copy nor what the
registry's canonical entry reads back to — the deep copies live in fresh,
pairwise disjoint regions of the store and `add_item` only writes cells
reachable from its receiver. -/
theorem registry_copy_isolation (fuel : Nat) (S0 : Store) (mgr : List Nat)
    (target : String) (r : Nat) (t : Obj) (S1 S2 : Store) (a1 a2 : Nat)
    (hfind : managerFind S0 mgr target = some r)
    (hread : readTree fuel S0 r = some t)
    (h1 : get_container_by_nameH fuel S0 mgr target = some (S1, a1))
    (h2 : get_container_by_nameH fuel S1 mgr target = some (S2, a2)) :
    (readTree fuel S2 a1 = some t ∧ readTree fuel S2 a2 = some t
      ∧ readTree fuel S2 r = some t)
    ∧ ∀ (item : Ref) (sl : Bool) (S3 : Store) (res : Bool),
        addItemH fuel S2 a1 item sl = some (S3, res) →
        readTree fuel S3 a2 = some t ∧ readTree fuel S3 r = some t := by
  have hd1 : deepcopy fuel S0 r = some (S1, a1) := by
    simpa [get_container_by_nameH, hfind] using h1
  obtain ⟨ext1, a1', hcopy1, hread1, hfresh1⟩ := (deepcopy_spec fuel).1 S0 r t hread
  rw [hcopy1] at hd1
  obtain ⟨hS1, ha1⟩ : S0 ++ ext1 = S1 ∧ a1' = a1 := by simpa using hd1
  subst hS1
  subst ha1
  have hfind1 : managerFind (S0 ++ ext1) mgr target = some r := managerFind_append ext1 hfind
  have hreadr1 : readTree fuel (S0 ++ ext1) r = some t := readTree_append ext1 hread
  have hd2 : deepcopy fuel (S0 ++ ext1) r = some (S2, a2) := by
    simpa [get_container_by_nameH, hfind1] using h2
  obtain ⟨ext2, a2', hcopy2, hread2, hfresh2⟩ :=
    (deepcopy_spec fuel).1 (S0 ++ ext1) r t hreadr1
  rw [hcopy2] at hd2
  obtain ⟨hS2, ha2⟩ : (S0 ++ ext1) ++ ext2 = S2 ∧ a2' = a2 := by simpa using hd2
  subst hS2
  subst ha2
  have hreadA1 : readTree fuel ((S0 ++ ext1) ++ ext2) a1' = some t :=
    readTree_append ext2 hread1
  have hreadR : readTree fuel ((S0 ++ ext1) ++ ext2) r = some t :=
    readTree_append ext2 hreadr1
  refine ⟨⟨hreadA1, hread2, hreadR⟩, ?_⟩
  intro item sl S3 res hmut
  obtain ⟨hlen, hframe⟩ := (addItemH_frame fuel).1 _ _ _ _ _ _ hmut
  have hA1addrs : rAddrs fuel ((S0 ++ ext1) ++ ext2) a1' = rAddrs fuel (S0 ++ ext1) a1' :=
    rAddrs_append ext2 hread1
  have hA1lower : ∀ b ∈ rAddrs fuel ((S0 ++ ext1) ++ ext2) a1', S0.length ≤ b := by
    intro b hb
    rw [hA1addrs] at hb
    exact hfresh1 b hb
  have hA1upper : ∀ b ∈ rAddrs fuel ((S0 ++ ext1) ++ ext2) a1', b < (S0 ++ ext1).length := by
    intro b hb
    rw [hA1addrs] at hb
    exact (read_valid fuel).1 (S0 ++ ext1) a1' t hread1 b hb
  constructor
  · have hagree : ∀ b ∈ rAddrs fuel ((S0 ++ ext1) ++ ext2) a2',
        S3[b]? = ((S0 ++ ext1) ++ ext2)[b]? := by
      intro b hb
      apply hframe
      intro hb'
      have hlow := hfresh2 b hb
      have hup := hA1upper b hb'
      omega
    rw [(read_congr fuel).1 _ S3 a2' hagree]
    exact hread2
  · have hRaddrs : rAddrs fuel ((S0 ++ ext1) ++ ext2) r = rAddrs fuel S0 r := by
      rw [rAddrs_append ext2 hreadr1, rAddrs_append ext1 hread]
    have hagree : ∀ b ∈ rAddrs fuel ((S0 ++ ext1) ++ ext2) r,
        S3[b]? = ((S0 ++ ext1) ++ ext2)[b]? := by
      intro b hb
      apply hframe
      intro hb'
      rw [hRaddrs] at hb
      have hvb := (read_valid fuel).1 S0 r t hread b hb
      have hlow := hA1lower b hb'
      omega
    rw [(read_congr fuel).1 _ S3 r hagree]
    exact hreadR

/-- C7, witness: a one-entry registry holding `box`; both lookups return
fresh copies, and adding a rope of weight 5 to the first copy leaves the
second copy and the canonical entry untouched. -/
theorem registry_copy_isolation_witness :
    managerFind [⟨false, "box", 0, 10, false, []⟩] [0] "box" = some 0
    ∧ readTree 2 [⟨false, "box", 0, 10, false, []⟩] 0
        = some (.node false "box" 0 10 false [])
    ∧ get_container_by_nameH 2 [⟨false, "box", 0, 10, false, []⟩] [0] "box"
        = some ([⟨false, "box", 0, 10, false, []⟩, ⟨false, "box", 0, 10, false, []⟩], 1)
    ∧ get_container_by_nameH 2
        [⟨false, "box", 0, 10, false, []⟩, ⟨false, "box", 0, 10, false, []⟩] [0] "box"
        = some ([⟨false, "box", 0, 10, false, []⟩, ⟨false, "box", 0, 10, false, []⟩,
                 ⟨false, "box", 0, 10, false, []⟩], 2)
    ∧ addItemH 2
        [⟨false, "box", 0, 10, false, []⟩, ⟨false, "box", 0, 10, false, []⟩,
         ⟨false, "box", 0, 10, false, []⟩] 1 (.item "rope" 5) false
        = some ([⟨false, "box", 0, 10, false, []⟩,
                 ⟨false, "box", 0, 10, false, [.item "rope" 5]⟩,
                 ⟨false, "box", 0, 10, false, []⟩], true)
    ∧ readTree 2
        [⟨false, "box", 0, 10, false, []⟩, ⟨false, "box", 0, 10, false, [.item "rope" 5]⟩,
         ⟨false, "box", 0, 10, false, []⟩] 2
        = some (.node false "box" 0 10 false [])
    ∧ readTree 2
        [⟨false, "box", 0, 10, false, []⟩, ⟨false, "box", 0, 10, false, [.item "rope" 5]⟩,
         ⟨false, "box", 0, 10, false, []⟩] 0
        = some (.node false "box" 0 10 false []) := by
  refine ⟨rfl, rfl, rfl, rfl, rfl, ?_, ?_⟩
  · exact ((registry_copy_isolation 2 [⟨false, "box", 0, 10, false, []⟩] [0] "box" 0
      (.node false "box" 0 10 false [])
      [⟨false, "box", 0, 10, false, []⟩, ⟨false, "box", 0, 10, false, []⟩]
      [⟨false, "box", 0, 10, false, []⟩, ⟨false, "box", 0, 10, false, []⟩,
       ⟨false, "box", 0, 10, false, []⟩] 1 2 rfl rfl rfl rfl).2
      (.item "rope" 5) false
      [⟨false, "box", 0, 10, false, []⟩, ⟨false, "box", 0, 10, false, [.item "rope" 5]⟩,
       ⟨false, "box", 0, 10, false, []⟩] true rfl).1
  · exact ((registry_copy_isolation 2 [⟨false, "box", 0, 10, false, []⟩] [0] "box" 0
      (.node false "box" 0 10 false [])
      [⟨false, "box", 0, 10, false, []⟩, ⟨false, "box", 0, 10, false, []⟩]
      [⟨false, "box", 0, 10, false, []⟩, ⟨false, "box", 0, 10, false, []⟩,
       ⟨false, "box", 0, 10, false, []⟩] 1 2 rfl rfl rfl rfl).2
      (.item "rope" 5) false
      [⟨false, "box", 0, 10, false, []⟩, ⟨false, "box", 0, 10, false, [.item "rope" 5]⟩,
       ⟨false, "box", 0, 10, false, []⟩] true rfl).2

end Inventory
